import Mathlib

/-!
Verification development for the `nipaa-pac` tool: a codec for the PAC
game-archive format (`src/main.rs`) and the TTP animation format
(`src/ttp.rs`).  Byte streams are modelled as `List Nat` (each element a
byte value), machine integers as `Nat` with explicit `% 2^32` where the
Rust code performs `u32` arithmetic (release-mode wrapping semantics).
-/

namespace NipaaPac

/-- `2^32`, the modulus of Rust `u32` arithmetic. -/
def U32 : Nat := 4294967296

/-- Little-endian `u32` serialization, as performed by `binrw`'s
`write_le` for a `u32` value (`n as u32` truncates, hence the digit
extraction works modulo `2^32`). -/
def u32le (n : Nat) : List Nat :=
  [n % 256, n / 256 % 256, n / 65536 % 256, n / 16777216 % 256]

/-- Little-endian `u32` value of four bytes. -/
def decodeU32 (b0 b1 b2 b3 : Nat) : Nat :=
  b0 + 256 * b1 + 65536 * b2 + 16777216 * b3

/-- Read `n` bytes at absolute offset `off`; fails (like a `binrw` read
past end of stream) when the stream is too short. -/
def readBytes? (bs : List Nat) (off n : Nat) : Option (List Nat) :=
  if off + n ≤ bs.length then some ((bs.drop off).take n) else none

/-- Read a little-endian `u32` at absolute offset `off`. -/
def readU32? (bs : List Nat) (off : Nat) : Option Nat :=
  match readBytes? bs off 4 with
  | some [b0, b1, b2, b3] => some (decodeU32 b0 b1 b2 b3)
  | _ => none

/-- Read a `binrw` `NullString` at absolute offset `off`: the bytes up
to (excluding) the first zero byte; fails when no zero byte occurs
before the end of the stream (the `NullString` reader hits EOF). -/
def readNullString? (bs : List Nat) (off : Nat) : Option (List Nat) :=
  let rest := bs.drop off
  if rest.contains 0 then some (rest.takeWhile (fun b => b != 0)) else none

/-! ## Model of the Shift-JIS text codec

The source calls `encoding_rs::SHIFT_JIS` (an external collaborator,
spec §4.1).  The model implements the WHATWG Shift_JIS coder structure
exactly for the single-byte portions (ASCII incl. 0x80, halfwidth
katakana 0xA1–0xDF, the encoder specials U+00A5 → 0x5C and
U+203E → 0x7E, the error bytes 0xA0 and 0xFD–0xFF, lead/trail byte
ranges); the JIS X 0208 double-byte index is abstracted as an
order-isomorphic injective map from valid pointers into a private code
point block, preserving which byte sequences are well-formed and that
decoding inverts encoding.  `decode` fails iff the real decoder reports
a replacement, which is exactly what `SHIFT_JIS.decode`'s third result
component signals. -/

/-- Lead-byte offset of the WHATWG Shift_JIS decoder. -/
def sjLeadOffset (l : Nat) : Nat := if l < 160 then 129 else 193

/-- Trail-byte offset of the WHATWG Shift_JIS decoder. -/
def sjTrailOffset (t : Nat) : Nat := if t < 127 then 64 else 65

/-- Valid Shift_JIS lead byte (0x81–0x9F or 0xE0–0xFC). -/
def sjIsLead (b : Nat) : Bool := (129 ≤ b && b ≤ 159) || (224 ≤ b && b ≤ 252)

/-- Valid Shift_JIS trail byte (0x40–0x7E or 0x80–0xFC). -/
def sjIsTrail (b : Nat) : Bool := (64 ≤ b && b ≤ 126) || (128 ≤ b && b ≤ 252)

/-- Pointer of a two-byte sequence, per the WHATWG decoder. -/
def sjPointer (l t : Nat) : Nat := (l - sjLeadOffset l) * 188 + (t - sjTrailOffset t)

/-- Base code point of the abstract double-byte block (CJK block start). -/
def sjBase : Nat := 19968

/-- Largest valid pointer (lead row 59, trail column 187). -/
def sjMaxPointer : Nat := 11279

/-- Decode Shift-JIS bytes to code points; `none` iff the decoder would
emit a replacement (invalid lead, invalid trail, or truncated pair). -/
def sjDecodeChars : List Nat → Option (List Char)
  | [] => some []
  | b :: rest =>
    if b ≤ 128 then (sjDecodeChars rest).map (fun cs => Char.ofNat b :: cs)
    else if 161 ≤ b && b ≤ 223 then
      (sjDecodeChars rest).map (fun cs => Char.ofNat (65377 + (b - 161)) :: cs)
    else if sjIsLead b then
      match rest with
      | [] => none
      | t :: rest2 =>
        if sjIsTrail t then
          (sjDecodeChars rest2).map (fun cs => Char.ofNat (sjBase + sjPointer b t) :: cs)
        else none
    else none

/-- `SHIFT_JIS.decode` succeeding without replacements. -/
def sjDecode (bs : List Nat) : Option String :=
  (sjDecodeChars bs).map (fun cs => String.mk cs)

/-- Encode one code point to Shift-JIS bytes; `none` iff the character
is unmappable (the encoder would need a replacement). -/
def sjEncodeChar (c : Char) : Option (List Nat) :=
  let n := c.toNat
  if n ≤ 128 then some [n]
  else if n = 165 then some [92]
  else if n = 8254 then some [126]
  else if 65377 ≤ n && n ≤ 65439 then some [n - 65377 + 161]
  else if sjBase ≤ n && n ≤ sjBase + sjMaxPointer then
    let p := n - sjBase
    let row := p / 188
    let col := p % 188
    some [row + (if row < 31 then 129 else 193), col + (if col < 63 then 64 else 65)]
  else none

/-- Encode a list of code points. -/
def sjEncodeChars : List Char → Option (List Nat)
  | [] => some []
  | c :: cs => do
    let b ← sjEncodeChar c
    let rest ← sjEncodeChars cs
    pure (b ++ rest)

/-- `SHIFT_JIS.encode` succeeding without replacements. -/
def sjEncode (s : String) : Option (List Nat) := sjEncodeChars s.data

/-! ## Model of the zlib codec

The source uses `miniz_oxide` (`decompress_to_vec_zlib`,
`compress_to_vec_zlib`), an external collaborator whose contract
(spec §4.2) is: `deflate` never fails, `inflate` fails on malformed
streams, and `inflate (deflate x) = x`.  The model realizes the
contract with an abstract injective stream shape (a zlib two-byte
header followed by the payload). -/

/-- Abstract model of `compress_to_vec_zlib` (level argument dropped:
the output shape is all that the contract exposes). -/
def zlibDeflate (data : List Nat) : List Nat := 120 :: 156 :: data

/-- Abstract model of `decompress_to_vec_zlib`; fails on streams not
produced by `zlibDeflate`. -/
def zlibInflate : List Nat → Option (List Nat)
  | 120 :: 156 :: d => some d
  | _ => none

theorem zlibInflate_zlibDeflate (x : List Nat) : zlibInflate (zlibDeflate x) = some x := rfl

/-! ## PAC file bodies (`PacFile` in `src/main.rs`) -/

/-- The `ZLC3` magic bytes tagging the compressed variant. -/
def ZLC3 : List Nat := [90, 76, 67, 51]

/-- `PacFile`: a file body found in (or written to) an archive. -/
inductive PacFile where
  /-- BMP file compressed with zlib (`ZLC3` magic). -/
  | Bmz (uncompressed_size : Nat) (compressed_data : List Nat)
  /-- Any other file, raw bytes. -/
  | Other (data : List Nat)
deriving DecidableEq

/-- `PacFile::BMZ_HEADER_SIZE`. -/
def BMZ_HEADER_SIZE : Nat := 8

/-- `PacFile::size`. -/
def PacFile.size : PacFile → Nat
  | .Bmz _ compressed_data => compressed_data.length + BMZ_HEADER_SIZE
  | .Other data => data.length

/-- `BinWrite` serialization of a `PacFile`: the `Bmz` variant writes
the magic, `uncompressed_size : u32` and the compressed bytes; `Other`
writes the raw bytes. -/
def PacFile.write : PacFile → List Nat
  | .Bmz uncompressed_size compressed_data => ZLC3 ++ u32le uncompressed_size ++ compressed_data
  | .Other data => data

/-- `PacFile::converted_data`: inflate the `Bmz` variant, copy `Other`. -/
def PacFile.converted_data : PacFile → Except String (List Nat)
  | .Bmz _ compressed_data =>
    match zlibInflate compressed_data with
    | some data => .ok data
    | none => .error "zlib decompress failed"
  | .Other data => .ok data

/-- `PacFile::original_ext`. -/
def original_ext (conv_ext : String) : String :=
  if conv_ext = "bmp" then "bmz" else conv_ext

/-- `PacFile::converted_ext`. -/
def converted_ext (orig_ext : String) : String :=
  if orig_ext = "bmz" then "bmp" else orig_ext

/-- `PacFile::convert_back` (in the source it returns `Result` but both
arms are `Ok`, so the model is total): `.bmp` data is deflated into a
`Bmz` body whose `uncompressed_size` is `data.len() as u32`, anything
else is wrapped raw. -/
def PacFile.convert_back (data : List Nat) (conv_extension : String) : PacFile :=
  if conv_extension = "bmp" then
    .Bmz (data.length % U32) (zlibDeflate data)
  else
    .Other data

/-- The count `size - BMZ_HEADER_SIZE as u32` evaluated on `u32` with
release-mode wrapping semantics. -/
def bmzCount (size : Nat) : Nat := (size + U32 - 8) % U32

/-- Parse a `PacFile` at absolute offset `off` with the header's `size`
argument, following `binrw` enum semantics: try the `Bmz` variant
(4-byte magic, `u32` uncompressed size, `size - 8` (wrapping) payload
bytes); on any failure rewind and try `Other` (`size` raw bytes). -/
def parsePacFile (bs : List Nat) (off size : Nat) : Option PacFile :=
  let bmz : Option PacFile :=
    match readBytes? bs off 4 with
    | some m =>
      if m = ZLC3 then
        match readU32? bs (off + 4), readBytes? bs (off + 8) (bmzCount size) with
        | some us, some cd => some (.Bmz us cd)
        | _, _ => none
      else none
    | none => none
  match bmz with
  | some f => some f
  | none => (readBytes? bs off size).map PacFile.Other

/-! ## PAC archive reading (`PacEntryRead`, `PacArc`) -/

/-- One parsed directory entry: the header's pointer and size fields,
the body resolved through the pointer (`FilePtr32<PacFile>`), and the
undecoded name bytes (`NullString`, zero-padded to 56 bytes). -/
structure PacEntryRead where
  ptr : Nat
  size : Nat
  file : PacFile
  name : List Nat
deriving DecidableEq

/-- `PacEntryRead::name`: fallible Shift-JIS decoding of the stored
name bytes. -/
def PacEntryRead.name? (e : PacEntryRead) : Except String String :=
  match sjDecode e.name with
  | some s => .ok s
  | none => .error "failed to normally decode string"

/-- `ENTRY_NAME_SIZE`. -/
def ENTRY_NAME_SIZE : Nat := 56

/-- Parse one 64-byte header record at absolute offset `off`: the code
seeks +4 and reads `size : u32`, seeks back and reads the `ptr : u32`
of the `FilePtr32` (which then resolves the body at that absolute
offset), then reads the `NullString` name padded to 56 bytes. -/
def parseEntry (bs : List Nat) (off : Nat) : Option PacEntryRead := do
  let size ← readU32? bs (off + 4)
  let ptr ← readU32? bs off
  let file ← parsePacFile bs ptr size
  let name ← readNullString? bs (off + 8)
  pure ⟨ptr, size, file, name⟩

/-- Parse `n` consecutive header records starting at offset `off`
(each record has on-disk stride 4 + 4 + 56 = 64 bytes). -/
def parseEntries (bs : List Nat) : Nat → Nat → Option (List PacEntryRead)
  | 0, _ => some []
  | n + 1, off => do
    let e ← parseEntry bs off
    let rest ← parseEntries bs n (off + 64)
    pure (e :: rest)

/-- `PacArc`: entry count and directory. -/
structure PacArc where
  entries_count : Nat
  entries : List PacEntryRead
deriving DecidableEq

/-- `PacArc::read_le`: read `entries_count : u32` then that many
headers.  Total: every input either parses or yields `none`. -/
def parsePacArc (bs : List Nat) : Option PacArc := do
  let c ← readU32? bs 0
  let es ← parseEntries bs c 4
  pure ⟨c, es⟩

/-! ## Extraction (`PacArc::extract_all`) and path handling -/

/-- Index of the last `'.'` in a file name, if any. -/
def lastDotIdx (cs : List Char) : Option Nat :=
  match cs.reverse.findIdx? (fun c => c == '.') with
  | some j => some (cs.length - 1 - j)
  | none => none

/-- `Path::extension().and_then(to_str).unwrap_or("")`: the part after
the last dot, empty when there is no dot or the only dot leads the
name (hidden-file rule of `std::path`). -/
def pathExt (name : String) : String :=
  match lastDotIdx name.data with
  | some i => if i = 0 then "" else String.mk (name.data.drop (i + 1))
  | none => ""

/-- `Path::with_extension`: replace (or, for empty `newExt`, remove)
the extension of a file name. -/
def withFileExt (name : String) (newExt : String) : String :=
  match lastDotIdx name.data with
  | some i =>
    if i = 0 then
      if newExt = "" then name else name ++ "." ++ newExt
    else
      String.mk (name.data.take i) ++ (if newExt = "" then "" else "." ++ newExt)
  | none => if newExt = "" then name else name ++ "." ++ newExt

/-- Output file name chosen by `extract_all` for a decoded entry name:
the name with its extension remapped through `converted_ext`. -/
def extractName (name : String) : String :=
  withFileExt name (converted_ext (pathExt name))

/-- `PacArc::extract_all`, with the filesystem abstracted away: the
first component lists the `(file name, converted bytes)` writes that
happen, the second is the error that aborts the loop, if any.  The
source uses `entry.name()?` and `converted_data()?`, so the first
failure stops the walk; files written before it stay written. -/
def extractAll : List PacEntryRead → List (String × List Nat) × Option String
  | [] => ([], none)
  | e :: rest =>
    match e.name? with
    | .error msg => ([], some msg)
    | .ok n =>
      match e.file.converted_data with
      | .error msg => ([], some msg)
      | .ok d =>
        let out := extractAll rest
        ((extractName n, d) :: out.1, out.2)

/-! ## PAC archive writing (`PacEntryWrite`, `PacArcBuilder`) -/

/-- `PacEntryWrite`: offset field, undecoded name bytes, body.  The
on-disk `size` field is computed (`#[bw(calc = data.size() as u32)]`)
and the body itself is not part of the header (`#[bw(ignore)]`). -/
structure PacEntryWrite where
  offset : Nat
  name : List Nat
  data : PacFile
deriving DecidableEq

/-- `std::mem::size_of::<PacEntryWrite>()` on the 64-bit targets this
tool builds for: `NullString` (a `Vec<u8>` wrapper) is 24 bytes,
`PacFile` is 32 bytes (one tag byte, alignment padding filled by the
`u32` field, then the 24-byte `Vec`), and the `repr(C)` struct is
4 (`offset`) + 4 padding + 24 + 32 = 64 bytes — coinciding with the
on-disk record size 4 + 4 + 56. -/
def sizeOfPacEntryWrite : Nat := 64

/-- `BinWrite` of a `NullString` padded to `ENTRY_NAME_SIZE` bytes:
the content bytes, a zero terminator, then zero padding to 56 bytes. -/
def nullStringPad (bs : List Nat) : List Nat :=
  bs ++ 0 :: List.replicate (ENTRY_NAME_SIZE - (bs.length + 1)) 0

/-- The 64 header bytes written for one entry: `offset : u32`,
`size : u32` (computed from the body), and the padded name. -/
def headerBytes (e : PacEntryWrite) : List Nat :=
  u32le e.offset ++ u32le e.data.size ++ nullStringPad e.name

/-- `PacArcBuilder::add_entry`: encode the name with Shift-JIS; fail
when the encoder reports a replacement or the encoding does not leave
room for the terminator (`cow.len() < ENTRY_NAME_SIZE` guard); append
the entry (offset 0 for now) otherwise. -/
def add_entry (entries : List PacEntryWrite) (file : PacFile) (name : String) :
    Except String (List PacEntryWrite) :=
  match sjEncode name with
  | none => .error ("Failed to encode entry name: " ++ name)
  | some enc_name =>
    if enc_name.length < ENTRY_NAME_SIZE then
      .ok (entries ++ [⟨0, enc_name, file⟩])
    else
      .error ("Too long entry name: " ++ name)

/-- The loop body of `PacArcBuilder::pack`: walk the entries assigning
`entry.offset = current_offset` and advancing the running offset by the
entry's serialized body size (`u32` wrapping addition), accumulating
the header buffer and the data buffer. -/
def packEntries : List PacEntryWrite → Nat → List Nat × List Nat
  | [], _ => ([], [])
  | e :: rest, off =>
    let tail := packEntries rest ((off + e.data.size) % U32)
    (headerBytes { e with offset := off } ++ tail.1, e.data.write ++ tail.2)

/-- `PacArcBuilder::pack`: write `entries.len() as u32`, then the header
buffer, then the data buffer.  The initial running offset is
`(size_of::<PacEntryWrite>() * len + 4) as u32`. -/
def pack (entries : List PacEntryWrite) : List Nat :=
  let bufs := packEntries entries ((sizeOfPacEntryWrite * entries.length + 4) % U32)
  u32le entries.length ++ bufs.1 ++ bufs.2

/-- Building an archive from `(name, raw bytes, converted extension)`
triples as the `Pack` command does for each source file: convert the
raw bytes back to a `PacFile` for the extension, then `add_entry`. -/
def buildAll (inputs : List (String × List Nat × String)) :
    Except String (List PacEntryWrite) :=
  inputs.foldlM (fun es t => add_entry es (PacFile.convert_back t.2.1 t.2.2) t.1) []

/-- Sum of the serialized body sizes of a list of pending entries. -/
def sumSizes (es : List PacEntryWrite) : Nat := (es.map (fun e => e.data.size)).sum

/-- The header block the spec's offset algorithm prescribes: headers in
insertion order, each carrying the running offset, which starts at the
given base and advances by each body's serialized size. -/
def headersList : List PacEntryWrite → Nat → List Nat
  | [], _ => []
  | e :: rest, off => headerBytes { e with offset := off } ++ headersList rest (off + e.data.size)

/-- The body block the spec prescribes: all bodies in insertion order. -/
def bodiesList (es : List PacEntryWrite) : List Nat :=
  es.flatMap (fun e => e.data.write)

/-- The entries a re-parse of a packed archive is expected to produce:
pointer = running offset, size = serialized body size, the body and the
name bytes unchanged. -/
def expectedEntries : List PacEntryWrite → Nat → List PacEntryRead
  | [], _ => []
  | e :: rest, off =>
    ⟨off, e.data.size, e.data, e.name⟩ :: expectedEntries rest (off + e.data.size)

/-! ## TTP animation codec (`src/ttp.rs`) -/

/-- `ResName`: length-prefixed Shift-JIS resource name. -/
structure ResName where
  len : Nat
  sj_bytes : List Nat
deriving DecidableEq

/-- `TtpFrame`: three resource names plus five numeric fields. -/
structure TtpFrame where
  sprite_name : ResName
  se_name : ResName
  textbox_name : ResName
  delay_ms : Nat
  x_offset_textbox : Nat
  y_offset_textbox : Nat
  x_offset : Nat
  y_offset : Nat
deriving DecidableEq

/-- `TtpFile`: header fields, frames, and the trailing byte that is
read only when `maybe_ttp_type == 3`. -/
structure TtpFile where
  maybe_ttp_type : Nat
  frame_count : Nat
  window_width : Nat
  window_height : Nat
  frames : List TtpFrame
  unk_bool : Option Nat
deriving DecidableEq

/-- `BinWrite` of a `ResName`: the stored `len : u32` field followed by
the stored bytes (no recomputation happens on the binary write path). -/
def ResName.write (r : ResName) : List Nat := u32le r.len ++ r.sj_bytes

/-- `BinWrite` of a `TtpFrame`. -/
def TtpFrame.write (f : TtpFrame) : List Nat :=
  f.sprite_name.write ++ f.se_name.write ++ f.textbox_name.write ++
  u32le f.delay_ms ++ u32le f.x_offset_textbox ++ u32le f.y_offset_textbox ++
  u32le f.x_offset ++ u32le f.y_offset

/-- `BinWrite` of a `TtpFile`: the four header `u32`s (`frame_count` is
a stored field, written verbatim), all frames, and the optional
trailing byte (`Option<u8>` writes nothing for `None`). -/
def TtpFile.write (f : TtpFile) : List Nat :=
  u32le f.maybe_ttp_type ++ u32le f.frame_count ++ u32le f.window_width ++
  u32le f.window_height ++ f.frames.flatMap TtpFrame.write ++
  (match f.unk_bool with
   | some b => [b]
   | none => [])

/-- The serde string deserializer for `ResName` (`ResNameVisitor`):
encode the string and set `len` to the encoded byte length. -/
def ResName.ofStr (s : String) : Option ResName :=
  (sjEncode s).map (fun bs => ⟨bs.length, bs⟩)

/-- Consume a little-endian `u32` from the front of a stream. -/
def takeU32 : List Nat → Option (Nat × List Nat)
  | b0 :: b1 :: b2 :: b3 :: rest => some (decodeU32 b0 b1 b2 b3, rest)
  | _ => none

/-- Consume `n` bytes from the front of a stream. -/
def takeBytes (n : Nat) (bs : List Nat) : Option (List Nat × List Nat) :=
  if n ≤ bs.length then some (bs.take n, bs.drop n) else none

/-- `BinRead` of a `ResName`: `len : u32` then `len` bytes. -/
def ResName.read (bs : List Nat) : Option (ResName × List Nat) := do
  let (len, r1) ← takeU32 bs
  let (b, r2) ← takeBytes len r1
  pure (⟨len, b⟩, r2)

/-- `BinRead` of a `TtpFrame`. -/
def TtpFrame.read (bs : List Nat) : Option (TtpFrame × List Nat) := do
  let (sprite, r1) ← ResName.read bs
  let (se, r2) ← ResName.read r1
  let (textbox, r3) ← ResName.read r2
  let (delay, r4) ← takeU32 r3
  let (xt, r5) ← takeU32 r4
  let (yt, r6) ← takeU32 r5
  let (x, r7) ← takeU32 r6
  let (y, r8) ← takeU32 r7
  pure (⟨sprite, se, textbox, delay, xt, yt, x, y⟩, r8)

/-- Read `frame_count` frames. -/
def readFrames : Nat → List Nat → Option (List TtpFrame × List Nat)
  | 0, bs => some ([], bs)
  | n + 1, bs => do
    let (f, r1) ← TtpFrame.read bs
    let (fs, r2) ← readFrames n r1
    pure (f :: fs, r2)

/-- `BinRead` of a `TtpFile`: four header `u32`s, `frame_count` frames,
then one trailing byte only when `maybe_ttp_type == 3`
(`#[br(if(maybe_ttp_type == 3))]`).  Trailing stream bytes are left
unconsumed, as `read_le` does. -/
def ttpParse (bs : List Nat) : Option TtpFile := do
  let (t, r1) ← takeU32 bs
  let (c, r2) ← takeU32 r1
  let (w, r3) ← takeU32 r2
  let (h, r4) ← takeU32 r3
  let (frames, r5) ← readFrames c r4
  if t = 3 then
    match r5 with
    | b :: _ => pure ⟨t, c, w, h, frames, some b⟩
    | [] => none
  else
    pure ⟨t, c, w, h, frames, none⟩

/-- Well-formedness of a `ResName` for binary round-tripping: the
stored length prefix matches the byte count and fits in a `u32`. -/
def ResName.wfB (r : ResName) : Bool :=
  r.len == r.sj_bytes.length && r.len < U32

/-- Well-formedness of a `TtpFrame`: names well-formed, numerics in
`u32` range. -/
def TtpFrame.wfB (f : TtpFrame) : Bool :=
  f.sprite_name.wfB && f.se_name.wfB && f.textbox_name.wfB &&
  f.delay_ms < U32 && f.x_offset_textbox < U32 && f.y_offset_textbox < U32 &&
  f.x_offset < U32 && f.y_offset < U32

/-- Well-formedness of a `TtpFile`: stored `frame_count` matches the
number of frames, numerics in `u32` range, frames well-formed, and the
trailing byte present exactly when `maybe_ttp_type == 3`. -/
def TtpFile.wfB (f : TtpFile) : Bool :=
  f.frame_count == f.frames.length && f.maybe_ttp_type < U32 &&
  f.frame_count < U32 && f.window_width < U32 && f.window_height < U32 &&
  f.frames.all TtpFrame.wfB &&
  (if f.maybe_ttp_type = 3 then f.unk_bool.isSome else f.unk_bool == none)

/-! ## Byte-level lemmas -/

theorem u32le_length (n : Nat) : (u32le n).length = 4 := rfl

theorem readBytes?_eq_of_le (bs : List Nat) (off n : Nat) (h : off + n ≤ bs.length) :
    readBytes? bs off n = some ((bs.drop off).take n) := by
  simp [readBytes?, h]

theorem readBytes?_eq_none (bs : List Nat) (off n : Nat) (h : bs.length < off + n) :
    readBytes? bs off n = none := by
  simp [readBytes?]; omega

theorem slice_sub (B L : List Nat) (p k o n : Nat)
    (hL : (B.drop p).take k = L) (hBk : p + k ≤ B.length) (h : o + n ≤ k) :
    readBytes? B (p + o) n = some ((L.drop o).take n) := by
  rw [readBytes?_eq_of_le B (p + o) n (by omega)]
  subst hL
  rw [List.drop_take, List.drop_drop, List.take_take, min_eq_left (by omega)]

theorem slice_split (B L : List Nat) (p : Nat)
    (hL : (B.drop p).take L.length = L) (hBk : p + L.length ≤ B.length) :
    B.drop p = L ++ B.drop (p + L.length) := by
  conv_lhs => rw [← List.take_append_drop L.length (B.drop p)]
  rw [hL, List.drop_drop]

theorem decodeU32_u32le (m : Nat) :
    decodeU32 (m % 256) (m / 256 % 256) (m / 65536 % 256) (m / 16777216 % 256) = m % U32 := by
  simp only [decodeU32, U32]
  omega

theorem readU32?_u32le (B : List Nat) (q m : Nat) (h : readBytes? B q 4 = some (u32le m)) :
    readU32? B q = some (m % U32) := by
  rw [readU32?, h]
  simp only [u32le]
  exact congrArg some (decodeU32_u32le m)

theorem takeWhile_append_stop (p : Nat → Bool) (l r : List Nat) (x : Nat)
    (h : ∀ b ∈ l, p b) (hx : p x = false) :
    (l ++ x :: r).takeWhile p = l := by
  induction l with
  | nil => simp [List.takeWhile, hx]
  | cons a t ih =>
    simp only [List.cons_append, List.takeWhile]
    rw [h a (by simp)]
    simp [ih (fun b hb => h b (by simp [hb]))]

theorem readNullString?_of_split (B : List Nat) (off : Nat) (name tail : List Nat)
    (hsplit : B.drop off = name ++ 0 :: tail) (h0 : ∀ b ∈ name, b ≠ 0) :
    readNullString? B off = some name := by
  rw [readNullString?]
  simp only [hsplit]
  rw [if_pos (by simpa [List.elem_iff] using Or.inr (Or.inl rfl))]
  rw [takeWhile_append_stop _ name tail 0 (fun b hb => by simp [h0 b hb]) (by simp)]

theorem nullStringPad_length (bs : List Nat) (h : bs.length < 56) :
    (nullStringPad bs).length = 56 := by
  simp [nullStringPad, ENTRY_NAME_SIZE]
  omega

theorem headerBytes_length (e : PacEntryWrite) (h : e.name.length < 56) :
    (headerBytes e).length = 64 := by
  simp [headerBytes, u32le, nullStringPad, ENTRY_NAME_SIZE]
  omega

theorem PacFile.write_length (f : PacFile) : f.write.length = f.size := by
  cases f <;> simp [PacFile.write, PacFile.size, ZLC3, u32le, BMZ_HEADER_SIZE] <;> omega

/-! ## Parsing packed archives -/

theorem parseEntries_length (bs : List Nat) (n off : Nat) (l : List PacEntryRead)
    (h : parseEntries bs n off = some l) : l.length = n := by
  induction n generalizing off l with
  | zero =>
    simp only [parseEntries] at h
    cases h
    rfl
  | succ k ih =>
    simp only [parseEntries, Option.bind_eq_bind, Option.bind_eq_some] at h
    obtain ⟨e, _, rest, hrest, hl⟩ := h
    cases hl
    simp [ih (off + 64) rest hrest]

/-- Side condition on a written body under which re-parsing recovers it
exactly: a `Bmz` body's `uncompressed_size` must fit a `u32`, and an
`Other` body must not begin with the `ZLC3` magic. -/
def ValidBody : PacFile → Prop
  | .Bmz us _ => us < U32
  | .Other d => d.take 4 ≠ ZLC3

theorem parsePacFile_of_write (B : List Nat) (boff : Nat) (f : PacFile)
    (hB : B.length < U32)
    (hslice : (B.drop boff).take f.size = f.write)
    (hin : boff + f.size ≤ B.length)
    (hv : ValidBody f) (hsz : f.size < U32) :
    parsePacFile B boff f.size = some f := by
  cases f with
  | Bmz us cd =>
    have hsize : PacFile.size (.Bmz us cd) = cd.length + 8 := rfl
    have hw : PacFile.write (.Bmz us cd) = ZLC3 ++ (u32le us ++ cd) := by
      simp [PacFile.write]
    rw [hw] at hslice
    have hmagic : readBytes? B (boff + 0) 4 = some (((ZLC3 ++ (u32le us ++ cd)).drop 0).take 4) :=
      slice_sub B _ boff (PacFile.size (.Bmz us cd)) 0 4 hslice hin (by rw [hsize]; omega)
    have hm2 : ((ZLC3 ++ (u32le us ++ cd)).drop 0).take 4 = ZLC3 := by
      simp [ZLC3]
    have hus : readBytes? B (boff + 4) 4 = some (((ZLC3 ++ (u32le us ++ cd)).drop 4).take 4) :=
      slice_sub B _ boff (PacFile.size (.Bmz us cd)) 4 4 hslice hin (by rw [hsize]; omega)
    have hus2 : ((ZLC3 ++ (u32le us ++ cd)).drop 4).take 4 = u32le us := by
      have : (ZLC3 ++ (u32le us ++ cd)).drop 4 = u32le us ++ cd := by
        simp [ZLC3]
      rw [this, ← u32le_length us, List.take_left]
    have hcount : bmzCount (PacFile.size (.Bmz us cd)) = cd.length := by
      simp only [bmzCount, hsize, U32] at hsz ⊢
      omega
    have hcd : readBytes? B (boff + 8) cd.length =
        some (((ZLC3 ++ (u32le us ++ cd)).drop 8).take cd.length) :=
      slice_sub B _ boff (PacFile.size (.Bmz us cd)) 8 cd.length hslice hin (by rw [hsize]; omega)
    have hcd2 : ((ZLC3 ++ (u32le us ++ cd)).drop 8).take cd.length = cd := by
      have : (ZLC3 ++ (u32le us ++ cd)).drop 8 = cd := by
        simp [ZLC3, u32le]
      rw [this, List.take_length]
    rw [hm2] at hmagic
    rw [hus2] at hus
    rw [hcd2] at hcd
    have husval : readU32? B (boff + 4) = some (us % U32) := readU32?_u32le B _ us hus
    have husred : us % U32 = us := Nat.mod_eq_of_lt hv
    simp only [parsePacFile]
    rw [show boff + 0 = boff from rfl] at hmagic
    rw [hmagic]
    simp only [if_pos rfl]
    rw [husval, hcount, hcd, husred]
    simp
  | Other d =>
    have hsize : PacFile.size (.Other d) = d.length := rfl
    have hw : PacFile.write (.Other d) = d := rfl
    rw [hw] at hslice
    have hfall : readBytes? B boff (PacFile.size (.Other d)) = some d := by
      rw [readBytes?_eq_of_le B boff _ hin, hslice]
    cases hc : readBytes? B boff 4 with
    | none =>
      simp only [parsePacFile, hc]
      rw [hfall]
      rfl
    | some m =>
      by_cases hm : m = ZLC3
      · subst hm
        have hlen4 : d.length < 4 := by
          by_contra h4
          have := slice_sub B d boff (PacFile.size (.Other d)) 0 4 hslice hin
            (by rw [hsize]; omega)
          rw [show boff + 0 = boff from rfl, hc] at this
          have hd4 : d.take 4 = ZLC3 := by
            have h' := this.symm
            simpa using h'
          exact hv hd4
        have hcount : bmzCount (PacFile.size (.Other d)) = d.length + U32 - 8 := by
          simp only [bmzCount, hsize, U32]
          omega
        have hnone : readBytes? B (boff + 8) (d.length + U32 - 8) = none := by
          apply readBytes?_eq_none
          simp only [U32] at hB ⊢
          omega
        simp only [parsePacFile, hc, if_pos rfl, hcount, hnone]
        cases readU32? B (boff + 4) <;> simp [hfall]
      · simp only [parsePacFile, hc, if_neg hm]
        rw [hfall]
        rfl

theorem headersList_length (es : List PacEntryWrite) (off : Nat)
    (h : ∀ e ∈ es, e.name.length < 56) :
    (headersList es off).length = 64 * es.length := by
  induction es generalizing off with
  | nil => rfl
  | cons e rest ih =>
    simp only [headersList, List.length_append, List.length_cons]
    rw [headerBytes_length ⟨off, e.name, e.data⟩ (h e (by simp)),
      ih _ (fun x hx => h x (by simp [hx]))]
    ring

theorem bodiesList_length (es : List PacEntryWrite) :
    (bodiesList es).length = sumSizes es := by
  induction es with
  | nil => rfl
  | cons e rest ih =>
    simp only [bodiesList, List.flatMap_cons, List.length_append]
    have hb : (rest.flatMap fun x => x.data.write) = bodiesList rest := rfl
    rw [hb, PacFile.write_length, ih]
    simp [sumSizes]

theorem packEntries_spec (es : List PacEntryWrite) (off : Nat)
    (h : off + sumSizes es < U32) :
    packEntries es off = (headersList es off, bodiesList es) := by
  induction es generalizing off with
  | nil => rfl
  | cons e rest ih =>
    have hsum : sumSizes (e :: rest) = e.data.size + sumSizes rest := by
      simp [sumSizes]
    rw [hsum] at h
    have hoff : (off + e.data.size) % U32 = off + e.data.size :=
      Nat.mod_eq_of_lt (by omega)
    have ihr := ih (off + e.data.size) (by omega)
    simp only [packEntries, hoff, ihr]
    rfl

theorem pack_spec (es : List PacEntryWrite)
    (h : 4 + 64 * es.length + sumSizes es < U32) :
    pack es = u32le es.length ++ headersList es (4 + 64 * es.length) ++ bodiesList es := by
  have hbase : (sizeOfPacEntryWrite * es.length + 4) % U32 = 4 + 64 * es.length := by
    rw [show sizeOfPacEntryWrite = 64 from rfl]
    rw [Nat.mod_eq_of_lt (by omega)]
    ring
  unfold pack
  rw [hbase, packEntries_spec es _ (by omega)]

theorem parseEntries_of_pack (B : List Nat) (hB : B.length < U32)
    (es : List PacEntryWrite) (p boff : Nat)
    (hhdr : (B.drop p).take (64 * es.length) = headersList es boff)
    (hplen : p + 64 * es.length ≤ B.length)
    (hbody : (B.drop boff).take (sumSizes es) = bodiesList es)
    (hblen : boff + sumSizes es ≤ B.length)
    (hval : ∀ e ∈ es, e.name.length < 56 ∧ (∀ b ∈ e.name, b ≠ 0) ∧ ValidBody e.data) :
    parseEntries B es.length p = some (expectedEntries es boff) := by
  induction es generalizing p boff with
  | nil => rfl
  | cons e rest ih =>
    obtain ⟨hname, hzero, hvb⟩ := hval e (by simp)
    set sz := e.data.size with hszdef
    set hdr := headerBytes { e with offset := boff } with hdrdef
    have hdrlen : hdr.length = 64 := headerBytes_length _ hname
    have hsum : sumSizes (e :: rest) = sz + sumSizes rest := by
      simp [sumSizes, hszdef]
    have hlen1 : (e :: rest).length = rest.length + 1 := rfl
    rw [hlen1] at hhdr hplen
    rw [hsum] at hbody hblen
    have hhdr' : (B.drop p).take (64 * (rest.length + 1)) =
        hdr ++ headersList rest (boff + sz) := hhdr
    have hbody' : (B.drop boff).take (sz + sumSizes rest) =
        e.data.write ++ bodiesList rest := hbody
    -- the first 64 bytes at p are this entry's header
    have htake64 : (B.drop p).take 64 = hdr := by
      have h1 : (B.drop p).take 64 = ((B.drop p).take (64 * (rest.length + 1))).take 64 := by
        rw [List.take_take, min_eq_left (by omega)]
      rw [h1, hhdr', ← hdrlen, List.take_left]
    have hp64 : p + 64 ≤ B.length := by omega
    -- sub-reads of the header record
    have hdrshape : hdr = u32le boff ++ (u32le sz ++ nullStringPad e.name) := by
      simp [hdrdef, headerBytes]
    have hptrW : readBytes? B (p + 0) 4 = some ((hdr.drop 0).take 4) :=
      slice_sub B hdr p 64 0 4 htake64 hp64 (by omega)
    have hptrW2 : (hdr.drop 0).take 4 = u32le boff := by
      rw [hdrshape]
      simp only [List.drop_zero, ← u32le_length boff, List.take_left]
    have hboffU : boff < U32 := by omega
    have hptr : readU32? B p = some boff := by
      have := readU32?_u32le B p boff (by rw [show p = p + 0 by omega] at hptrW ⊢; rw [hptrW, hptrW2])
      rwa [Nat.mod_eq_of_lt hboffU] at this
    have hszU : sz < U32 := by omega
    have hsizeW : readBytes? B (p + 4) 4 = some ((hdr.drop 4).take 4) :=
      slice_sub B hdr p 64 4 4 htake64 hp64 (by omega)
    have hsizeW2 : (hdr.drop 4).take 4 = u32le sz := by
      rw [hdrshape]
      rw [show (u32le boff ++ (u32le sz ++ nullStringPad e.name)).drop 4 =
          u32le sz ++ nullStringPad e.name by
        rw [← u32le_length boff, List.drop_left]]
      rw [← u32le_length sz, List.take_left]
    have hsize : readU32? B (p + 4) = some sz := by
      have := readU32?_u32le B (p + 4) sz (by rw [hsizeW, hsizeW2])
      rwa [Nat.mod_eq_of_lt hszU] at this
    -- the body parses back to the written PacFile
    have hbslice : (B.drop boff).take sz = e.data.write := by
      have h1 : (B.drop boff).take sz = ((B.drop boff).take (sz + sumSizes rest)).take sz := by
        rw [List.take_take, min_eq_left (by omega)]
      rw [h1, hbody', hszdef, ← PacFile.write_length e.data, List.take_left]
    have hfile : parsePacFile B boff sz = some e.data :=
      parsePacFile_of_write B boff e.data hB hbslice (by omega) hvb hszU
    -- the name reads back
    have hsplitp : B.drop p = hdr ++ B.drop (p + 64) := by
      have := slice_split B hdr p (by rw [hdrlen]; exact htake64) (by omega)
      rwa [hdrlen] at this
    have hnamefield : B.drop (p + 8) =
        e.name ++ 0 :: (List.replicate (ENTRY_NAME_SIZE - (e.name.length + 1)) 0 ++ B.drop (p + 64)) := by
      have h1 : B.drop (p + 8) = (B.drop p).drop 8 := by
        rw [List.drop_drop]
      rw [h1, hsplitp, List.drop_append_eq_append_drop, hdrlen]
      rw [show (8 : Nat) - 64 = 0 from rfl, List.drop_zero]
      rw [hdrshape]
      rw [show (u32le boff ++ (u32le sz ++ nullStringPad e.name)).drop 8 =
          nullStringPad e.name by simp [u32le]]
      simp [nullStringPad]
    have hnm : readNullString? B (p + 8) = some e.name :=
      readNullString?_of_split B (p + 8) e.name _ hnamefield hzero
    -- the remaining entries
    have hrest : parseEntries B rest.length (p + 64) = some (expectedEntries rest (boff + sz)) := by
      apply ih (p + 64) (boff + sz)
      · have harith : 64 * (rest.length + 1) - 64 = 64 * rest.length := by omega
        have h1 : ((B.drop p).take (64 * (rest.length + 1))).drop 64 =
            (B.drop (p + 64)).take (64 * rest.length) := by
          rw [List.drop_take, List.drop_drop, harith]
        rw [← h1, hhdr', ← hdrlen, List.drop_left]
      · omega
      · have harith : sz + sumSizes rest - sz = sumSizes rest := by omega
        have h1 : ((B.drop boff).take (sz + sumSizes rest)).drop sz =
            (B.drop (boff + sz)).take (sumSizes rest) := by
          rw [List.drop_take, List.drop_drop, harith]
        rw [← h1, hbody', hszdef, ← PacFile.write_length e.data, List.drop_left]
      · omega
      · exact fun x hx => hval x (by simp [hx])
    -- assemble
    show parseEntries B (rest.length + 1) p = _
    simp only [parseEntries, parseEntry, hsize, hptr, hfile, hnm, hrest,
      Option.bind_eq_bind, Option.some_bind]
    rfl

theorem parsePacArc_pack (es : List PacEntryWrite)
    (hsz : 4 + 64 * es.length + sumSizes es < U32)
    (hval : ∀ e ∈ es, e.name.length < 56 ∧ (∀ b ∈ e.name, b ≠ 0) ∧ ValidBody e.data) :
    parsePacArc (pack es) = some ⟨es.length, expectedEntries es (4 + 64 * es.length)⟩ := by
  have hnames : ∀ e ∈ es, e.name.length < 56 := fun e he => (hval e he).1
  have hps := pack_spec es hsz
  rw [hps]
  generalize hHdef : headersList es (4 + 64 * es.length) = H at *
  generalize hDdef : bodiesList es = D at *
  generalize hBdef : u32le es.length ++ H ++ D = B
  have hH : H.length = 64 * es.length := by
    rw [← hHdef]
    exact headersList_length es _ hnames
  have hD : D.length = sumSizes es := by
    rw [← hDdef]
    exact bodiesList_length es
  have hBlen : B.length = 4 + 64 * es.length + sumSizes es := by
    rw [← hBdef]
    simp [u32le, hH, hD]
    omega
  have hBU : B.length < U32 := by omega
  have hcnt : readU32? B 0 = some es.length := by
    have h4 : (0 : Nat) + 4 ≤ B.length := by omega
    have hr : readBytes? B 0 4 = some ((B.drop 0).take 4) := readBytes?_eq_of_le B 0 4 h4
    have ht : (B.drop 0).take 4 = u32le es.length := by
      rw [List.drop_zero, ← hBdef, List.append_assoc]
      exact List.take_left' (u32le_length es.length)
    have := readU32?_u32le B 0 es.length (by rw [hr, ht])
    rwa [Nat.mod_eq_of_lt (by omega : es.length < U32)] at this
  have hdrop4 : B.drop 4 = H ++ D := by
    rw [← hBdef, List.append_assoc]
    exact List.drop_left' (u32le_length es.length)
  have hhdr : (B.drop 4).take (64 * es.length) = H := by
    rw [hdrop4]
    exact List.take_left' hH
  have hdropHB : B.drop (4 + 64 * es.length) = D := by
    have hlen : (u32le es.length ++ H).length = 4 + 64 * es.length := by
      simp [u32le, hH]
      omega
    rw [← hBdef]
    exact List.drop_left' hlen
  have hbody : (B.drop (4 + 64 * es.length)).take (sumSizes es) = D := by
    rw [hdropHB, ← hD, List.take_length]
  have hentries : parseEntries B es.length 4 = some (expectedEntries es (4 + 64 * es.length)) :=
    parseEntries_of_pack B hBU es 4 (4 + 64 * es.length) (hHdef ▸ hhdr) (by omega)
      (hDdef ▸ hbody) (by omega) hval
  simp only [parsePacArc, hcnt, hentries, Option.bind_eq_bind, Option.some_bind]
  rfl

/-- The pending entry the builder creates for one `(name, raw bytes,
converted extension)` input triple. -/
def mkEntry (t : String × List Nat × String) : PacEntryWrite :=
  ⟨0, (sjEncode t.1).getD [], PacFile.convert_back t.2.1 t.2.2⟩

/-- Names for which the Shift-JIS codec round-trips within the fixed
name field: encodable, strictly shorter than 56 bytes, free of zero
bytes, and decoding back to the same string. -/
def goodName (s : String) : Bool :=
  match sjEncode s with
  | some bs => decide (bs.length < 56) && !(bs.contains 0) && (sjDecode bs == some s)
  | none => false

theorem buildAll_eq (inputs : List (String × List Nat × String))
    (hname : ∀ t ∈ inputs, goodName t.1 = true) :
    buildAll inputs = .ok (inputs.map mkEntry) := by
  have main : ∀ (l : List (String × List Nat × String)), (∀ t ∈ l, goodName t.1 = true) →
      ∀ acc : List PacEntryWrite,
      l.foldlM (fun es t => add_entry es (PacFile.convert_back t.2.1 t.2.2) t.1) acc =
        .ok (acc ++ l.map mkEntry) := by
    intro l
    induction l with
    | nil =>
      intro _ acc
      simp only [List.foldlM_nil, List.map_nil, List.append_nil]
      rfl
    | cons t rest ih =>
      intro h acc
      have ht := h t (by simp)
      rw [List.foldlM_cons]
      cases henc : sjEncode t.1 with
      | none => simp [goodName, henc] at ht
      | some bs =>
        simp only [goodName, henc, Bool.and_eq_true, decide_eq_true_eq] at ht
        have hstep : add_entry acc (PacFile.convert_back t.2.1 t.2.2) t.1 =
            .ok (acc ++ [mkEntry t]) := by
          simp only [add_entry, henc]
          rw [if_pos (show bs.length < ENTRY_NAME_SIZE by
            simpa [ENTRY_NAME_SIZE] using ht.1.1)]
          simp [mkEntry, henc]
        rw [hstep]
        show rest.foldlM _ (acc ++ [mkEntry t]) = _
        rw [ih (fun x hx => h x (by simp [hx])) (acc ++ [mkEntry t])]
        simp
  simpa using main inputs hname []

theorem mkEntry_valid (t : String × List Nat × String)
    (hname : goodName t.1 = true)
    (hraw : t.2.2 = "bmp" ∨ t.2.1.take 4 ≠ ZLC3) :
    (mkEntry t).name.length < 56 ∧ (∀ b ∈ (mkEntry t).name, b ≠ 0) ∧
      ValidBody (mkEntry t).data := by
  cases henc : sjEncode t.1 with
  | none => simp [goodName, henc] at hname
  | some bs =>
    simp only [goodName, henc, Bool.and_eq_true, decide_eq_true_eq] at hname
    have hn : (mkEntry t).name = bs := by simp [mkEntry, henc]
    refine ⟨by rw [hn]; exact hname.1.1, ?_, ?_⟩
    · rw [hn]
      intro b hb he
      have hc := hname.1.2
      simp only [Bool.not_eq_eq_eq_not, Bool.not_true] at hc
      simp [List.contains, List.elem_iff] at hc
      exact hc (he ▸ hb)
    · have hd : (mkEntry t).data = PacFile.convert_back t.2.1 t.2.2 := rfl
      rw [hd, PacFile.convert_back]
      by_cases hb : t.2.2 = "bmp"
      · rw [if_pos hb]
        exact Nat.mod_lt _ (by simp [U32])
      · rw [if_neg hb]
        cases hraw with
        | inl h => exact absurd h hb
        | inr h => exact h

theorem expectedEntries_results (inputs : List (String × List Nat × String)) (off : Nat)
    (hname : ∀ t ∈ inputs, goodName t.1 = true) :
    (expectedEntries (inputs.map mkEntry) off).map
        (fun e => (e.name?, e.file.converted_data)) =
      inputs.map (fun t => (Except.ok t.1, Except.ok t.2.1)) := by
  induction inputs generalizing off with
  | nil => rfl
  | cons t rest ih =>
    have ht := hname t (by simp)
    simp only [List.map_cons, expectedEntries, List.map]
    have h1 : (⟨off, (mkEntry t).data.size, (mkEntry t).data, (mkEntry t).name⟩ :
        PacEntryRead).name? = Except.ok t.1 := by
      cases henc : sjEncode t.1 with
      | none => simp [goodName, henc] at ht
      | some bs =>
        simp only [goodName, henc, Bool.and_eq_true, decide_eq_true_eq, beq_iff_eq] at ht
        have hn : (mkEntry t).name = bs := by simp [mkEntry, henc]
        simp only [PacEntryRead.name?, hn, ht.2]
    have h2 : (mkEntry t).data.converted_data = Except.ok t.2.1 := by
      have hd : (mkEntry t).data = PacFile.convert_back t.2.1 t.2.2 := rfl
      rw [hd, PacFile.convert_back]
      by_cases hb : t.2.2 = "bmp"
      · rw [if_pos hb]
        simp [PacFile.converted_data, zlibInflate, zlibDeflate]
      · rw [if_neg hb]
        rfl
    rw [h1, h2, ih _ (fun x hx => hname x (by simp [hx]))]

/-! ## Extraction lemmas -/

theorem extractAll_append (a b : List PacEntryRead) (h : (extractAll a).2 = none) :
    extractAll (a ++ b) = ((extractAll a).1 ++ (extractAll b).1, (extractAll b).2) := by
  induction a with
  | nil => simp [extractAll]
  | cons e rest ih =>
    cases hn : e.name? with
    | error msg => simp [extractAll, hn] at h
    | ok n =>
      cases hc : e.file.converted_data with
      | error msg => simp [extractAll, hn, hc] at h
      | ok d =>
        simp only [extractAll, hn, hc] at h
        simp only [List.cons_append, extractAll, hn, hc, List.append_eq, ih h]

/-! ## Undersized compressed bodies -/

theorem readU32?_isSome (bs : List Nat) (off : Nat) (h : off + 4 ≤ bs.length) :
    ∃ u, readU32? bs off = some u := by
  rw [readU32?, readBytes?_eq_of_le bs off 4 h]
  have hl : ((bs.drop off).take 4).length = 4 := by
    rw [List.length_take, List.length_drop]
    omega
  rcases hx : (bs.drop off).take 4 with _ | ⟨b0, _ | ⟨b1, _ | ⟨b2, _ | ⟨b3, _ | ⟨b4, tl⟩⟩⟩⟩⟩ <;>
    rw [hx] at hl <;> simp at hl
  exact ⟨decodeU32 b0 b1 b2 b3, rfl⟩

theorem bmz_undersized (bs : List Nat) (off size : Nat)
    (hsize : size < 8) (hlen : bs.length < U32) (hin : off + size ≤ bs.length) :
    parsePacFile bs off size = some (.Other ((bs.drop off).take size)) := by
  have hfall : readBytes? bs off size = some ((bs.drop off).take size) :=
    readBytes?_eq_of_le bs off size hin
  cases hc : readBytes? bs off 4 with
  | none =>
    simp only [parsePacFile, hc]
    rw [hfall]
    rfl
  | some m =>
    by_cases hm : m = ZLC3
    · subst hm
      have hcount : bmzCount size = size + U32 - 8 := by
        simp only [bmzCount, U32]
        omega
      have hnone : readBytes? bs (off + 8) (size + U32 - 8) = none := by
        apply readBytes?_eq_none
        simp only [U32] at hlen ⊢
        omega
      simp only [parsePacFile, hc, if_pos rfl, hcount, hnone]
      cases readU32? bs (off + 4) <;> simp [hfall]
    · simp only [parsePacFile, hc, if_neg hm]
      rw [hfall]
      rfl

theorem bmz_wellsized (bs : List Nat) (off size us : Nat)
    (h8 : 8 ≤ size) (hszU : size < U32) (hin : off + size ≤ bs.length)
    (hmagic : (bs.drop off).take 4 = ZLC3)
    (hus : readU32? bs (off + 4) = some us) :
    parsePacFile bs off size = some (.Bmz us ((bs.drop (off + 8)).take (size - 8))) := by
  have hm : readBytes? bs off 4 = some ZLC3 := by
    rw [readBytes?_eq_of_le bs off 4 (by omega), hmagic]
  have hcount : bmzCount size = size - 8 := by
    simp only [bmzCount, U32] at hszU ⊢
    omega
  have hcd : readBytes? bs (off + 8) (size - 8) =
      some ((bs.drop (off + 8)).take (size - 8)) :=
    readBytes?_eq_of_le bs (off + 8) (size - 8) (by omega)
  simp only [parsePacFile, hm, if_pos rfl, hcount, hus, hcd]
  simp

theorem readBytes?_some (bs : List Nat) (off n : Nat) (l : List Nat)
    (h : readBytes? bs off n = some l) :
    off + n ≤ bs.length ∧ l = (bs.drop off).take n := by
  by_cases hc : off + n ≤ bs.length
  · rw [readBytes?_eq_of_le bs off n hc] at h
    exact ⟨hc, (Option.some_inj.mp h).symm⟩
  · rw [readBytes?_eq_none bs off n (by omega)] at h
    exact absurd h (by simp)

theorem other_with_magic_size_lt8 (bs : List Nat) (off size : Nat) (d : List Nat)
    (hszU : size < U32)
    (hp : parsePacFile bs off size = some (.Other d))
    (hmag : d.take 4 = ZLC3) : size < 8 := by
  by_contra hge
  push_neg at hge
  -- helper: whenever the parse took the raw fallback, extract the facts
  have fall : readBytes? bs off size = some d → False := by
    intro hrb
    obtain ⟨hin, hd⟩ := readBytes?_some bs off size d hrb
    have hmagic : (bs.drop off).take 4 = ZLC3 := by
      rw [← hmag, hd, List.take_take, min_eq_left (by omega)]
    cases h4 : readBytes? bs off 4 with
    | none =>
      rw [readBytes?_eq_of_le bs off 4 (by omega)] at h4
      exact Option.noConfusion h4
    | some m =>
      have hm : m = ZLC3 := by
        rw [readBytes?_eq_of_le bs off 4 (by omega), hmagic] at h4
        exact (Option.some_inj.mp h4).symm
      subst hm
      obtain ⟨us, hus⟩ := readU32?_isSome bs (off + 4) (by omega)
      have := bmz_wellsized bs off size us hge hszU hin hmagic hus
      rw [this] at hp
      simp at hp
  -- compute the parse outcome case by case and compare with `hp`
  cases h4 : readBytes? bs off 4 with
  | none =>
    have hval : parsePacFile bs off size = (readBytes? bs off size).map PacFile.Other := by
      simp only [parsePacFile, h4]
    rw [hval] at hp
    cases hr : readBytes? bs off size with
    | none => rw [hr] at hp; exact Option.noConfusion hp
    | some l =>
      rw [hr] at hp
      simp only [Option.map] at hp
      have : l = d := by simpa using hp
      exact fall (this ▸ hr)
  | some m =>
    by_cases hm : m = ZLC3
    · subst hm
      cases hu : readU32? bs (off + 4) with
      | none =>
        obtain ⟨hin, _⟩ := readBytes?_some bs off 4 ZLC3 h4
        obtain ⟨us, hus⟩ := readU32?_isSome bs (off + 4) (by
          have := hp
          -- `Other` succeeded, so the whole body is in range
          have hval : parsePacFile bs off size = (readBytes? bs off size).map PacFile.Other := by
            simp only [parsePacFile, h4, if_pos rfl, hu]
            cases readBytes? bs (off + 8) (bmzCount size) <;> rfl
          rw [hval] at this
          cases hr : readBytes? bs off size with
          | none => rw [hr] at this; exact absurd this (by simp)
          | some l =>
            obtain ⟨hin2, _⟩ := readBytes?_some bs off size l hr
            omega)
        rw [hus] at hu
        exact Option.noConfusion hu
      | some us =>
        cases hcd : readBytes? bs (off + 8) (bmzCount size) with
        | none =>
          have hval : parsePacFile bs off size =
              (readBytes? bs off size).map PacFile.Other := by
            simp only [parsePacFile, h4, if_pos rfl, hu, hcd]
            simp
          rw [hval] at hp
          cases hr : readBytes? bs off size with
          | none => rw [hr] at hp; exact Option.noConfusion hp
          | some l =>
            rw [hr] at hp
            simp only [Option.map] at hp
            have : l = d := by simpa using hp
            exact fall (this ▸ hr)
        | some cd =>
          have hval : parsePacFile bs off size = some (.Bmz us cd) := by
            simp only [parsePacFile, h4, if_pos rfl, hu, hcd]
            simp
          rw [hval] at hp
          simp at hp
    · have hval : parsePacFile bs off size = (readBytes? bs off size).map PacFile.Other := by
        simp only [parsePacFile, h4, if_neg hm]
      rw [hval] at hp
      cases hr : readBytes? bs off size with
      | none => rw [hr] at hp; exact Option.noConfusion hp
      | some l =>
        rw [hr] at hp
        simp only [Option.map] at hp
        have : l = d := by simpa using hp
        exact fall (this ▸ hr)

/-! ## TTP round-trip lemmas -/

theorem takeU32_u32le (n : Nat) (rest : List Nat) :
    takeU32 (u32le n ++ rest) = some (n % U32, rest) := by
  simp only [u32le, List.cons_append, List.nil_append, takeU32]
  rw [decodeU32_u32le]

theorem resName_read_write (r : ResName) (h : r.wfB = true) (rest : List Nat) :
    ResName.read (r.write ++ rest) = some (r, rest) := by
  simp only [ResName.wfB, Bool.and_eq_true, beq_iff_eq, decide_eq_true_eq] at h
  obtain ⟨hlen, hU⟩ := h
  simp only [ResName.write, List.append_assoc, ResName.read, Option.bind_eq_bind,
    takeU32_u32le, Nat.mod_eq_of_lt hU, Option.some_bind]
  rw [takeBytes, if_pos (show r.len ≤ (r.sj_bytes ++ rest).length by
    simp only [List.length_append, ← hlen]
    omega)]
  rw [List.take_left' hlen.symm, List.drop_left' hlen.symm]
  rfl

theorem ttpFrame_read_write (f : TtpFrame) (h : f.wfB = true) (rest : List Nat) :
    TtpFrame.read (f.write ++ rest) = some (f, rest) := by
  simp only [TtpFrame.wfB, Bool.and_eq_true, decide_eq_true_eq] at h
  obtain ⟨⟨⟨⟨⟨⟨⟨h1, h2⟩, h3⟩, h4⟩, h5⟩, h6⟩, h7⟩, h8⟩ := h
  simp only [TtpFrame.write, List.append_assoc, TtpFrame.read, Option.bind_eq_bind,
    resName_read_write f.sprite_name h1, Option.some_bind,
    resName_read_write f.se_name h2, resName_read_write f.textbox_name h3,
    takeU32_u32le, Nat.mod_eq_of_lt h4, Nat.mod_eq_of_lt h5, Nat.mod_eq_of_lt h6,
    Nat.mod_eq_of_lt h7, Nat.mod_eq_of_lt h8]
  rfl

theorem readFrames_write (fs : List TtpFrame) (h : fs.all TtpFrame.wfB = true)
    (rest : List Nat) :
    readFrames fs.length (fs.flatMap TtpFrame.write ++ rest) = some (fs, rest) := by
  induction fs with
  | nil => rfl
  | cons f tl ih =>
    simp only [List.all_cons, Bool.and_eq_true] at h
    simp only [List.length_cons, List.flatMap_cons, List.append_assoc, readFrames,
      Option.bind_eq_bind, ttpFrame_read_write f h.1, Option.some_bind, ih h.2]
    rfl

theorem ttp_roundtrip_of_wf (f : TtpFile) (h : f.wfB = true) :
    ttpParse f.write = some f := by
  obtain ⟨t, c, w, hgt, fr, ub⟩ := f
  simp only [TtpFile.wfB, Bool.and_eq_true, beq_iff_eq, decide_eq_true_eq] at h
  obtain ⟨⟨⟨⟨⟨⟨hc, ht⟩, hcU⟩, hwU⟩, hhU⟩, hfs⟩, htr⟩ := h
  subst hc
  simp only [TtpFile.write, List.append_assoc, ttpParse, Option.bind_eq_bind,
    takeU32_u32le, Option.some_bind, Nat.mod_eq_of_lt ht, Nat.mod_eq_of_lt hcU,
    Nat.mod_eq_of_lt hwU, Nat.mod_eq_of_lt hhU]
  rw [readFrames_write fr hfs]
  by_cases h3 : t = 3
  · rw [if_pos h3] at htr
    obtain ⟨b, hb⟩ := Option.isSome_iff_exists.mp htr
    subst hb
    simp only [Option.some_bind]
    rw [if_pos h3]
    rfl
  · rw [if_neg h3] at htr
    have hn : ub = none := by simpa using htr
    subst hn
    simp only [Option.some_bind]
    rw [if_neg h3]
    rfl

/-! ## Claim theorems -/

set_option maxRecDepth 200000

/-- A two-entry archive whose first entry's name byte 0xA0 is not valid
Shift-JIS while the second entry's name is a plain "B". -/
def c1bytes : List Nat :=
  u32le 2 ++ u32le 132 ++ u32le 1 ++ nullStringPad [160] ++
  u32le 133 ++ u32le 1 ++ nullStringPad [66] ++ [9] ++ [7]

/-- Claim C1 (counterexample): extracting `c1bytes` reports the decode
error of the first entry and aborts the whole batch — the `?` in
`extract_all` stops the loop, so the second entry, whose name decodes
fine ("B"), is never extracted; the claim's "still extracts every
subsequent entry" fails. -/
theorem extract_all_batch_cex :
    (parsePacArc c1bytes).map (fun a => extractAll a.entries) =
      some ([], some "failed to normally decode string") ∧
    (parsePacArc c1bytes).map (fun a => a.entries.map (fun e => e.name?.toOption)) =
      some [none, some "B"] := by
  constructor
  · rfl
  · decide

/-- Claim C1 (amended): `extract_all` walks the entries in order and
aborts at the first entry whose name fails to decode, reporting that
entry's error; entries before it have already been written, entries
after it are not extracted. -/
theorem extract_all_stops_at_first_bad_name (pre post : List PacEntryRead)
    (bad : PacEntryRead) (msg : String)
    (hpre : (extractAll pre).2 = none) (hbad : bad.name? = .error msg) :
    extractAll (pre ++ bad :: post) = ((extractAll pre).1, some msg) := by
  rw [extractAll_append pre (bad :: post) hpre]
  have hb : extractAll (bad :: post) = ([], some msg) := by
    simp [extractAll, hbad]
  rw [hb]
  simp

/-- First witness entry list: one entry with a decodable name. -/
def w1pre : List PacEntryRead := [⟨68, 1, PacFile.Other [9], [65]⟩]

/-- Witness bad entry: name byte 0xA0 is invalid Shift-JIS. -/
def w1bad : PacEntryRead := ⟨69, 1, PacFile.Other [7], [160]⟩

/-- Witness trailing entry. -/
def w1post : List PacEntryRead := [⟨70, 1, PacFile.Other [8], [66]⟩]

theorem extract_all_stops_witness :
    (extractAll w1pre).2 = none ∧
    w1bad.name? = Except.error "failed to normally decode string" ∧
    extractAll (w1pre ++ w1bad :: w1post) =
      ((extractAll w1pre).1, some "failed to normally decode string") :=
  ⟨rfl, rfl, extract_all_stops_at_first_bad_name w1pre w1post w1bad
    "failed to normally decode string" rfl rfl⟩

/-- Claim C2 (counterexample): the name `"\x00"` is Shift-JIS-encodable
(to the single byte 0) in under 56 bytes, so it satisfies the claim's
hypothesis and `add_entry` accepts it; but the name field is
zero-terminated on disk, so after pack and re-parse the decoded name is
`""`, not the original `"\x00"`. -/
theorem pac_roundtrip_nul_cex :
    sjEncode "\x00" = some [0] ∧ ([0] : List Nat).length < 56 ∧
    (buildAll [("\x00", [1, 2, 3], "dat")]).toOption.map
        (fun es => (parsePacArc (pack es)).map
          (fun a => a.entries.map (fun e => e.name?.toOption))) =
      some (some [some ""]) ∧
    ("" : String) ≠ "\x00" := by
  refine ⟨rfl, by decide, ?_, by decide⟩
  rfl

/-- Claim C2 (amended): for input triples whose names encode to fewer
than 56 Shift-JIS bytes containing no zero byte and decoding back to
the original string, whose non-bitmap bodies do not begin with the
`ZLC3` magic, and whose total packed size fits a `u32`, building via
`add_entry`, packing and re-parsing yields the same entry count and,
entry by entry, the original decoded name and the original converted
body bytes. -/
theorem pac_roundtrip_amended (inputs : List (String × List Nat × String))
    (hname : ∀ t ∈ inputs, goodName t.1 = true)
    (hraw : ∀ t ∈ inputs, t.2.2 = "bmp" ∨ t.2.1.take 4 ≠ ZLC3)
    (hsz : 4 + 64 * inputs.length + sumSizes (inputs.map mkEntry) < U32) :
    buildAll inputs = .ok (inputs.map mkEntry) ∧
    ∃ arc, parsePacArc (pack (inputs.map mkEntry)) = some arc ∧
      arc.entries_count = inputs.length ∧
      arc.entries.map (fun e => (e.name?, e.file.converted_data)) =
        inputs.map (fun t => (Except.ok t.1, Except.ok t.2.1)) := by
  refine ⟨buildAll_eq inputs hname, ?_⟩
  have hval : ∀ e ∈ inputs.map mkEntry,
      e.name.length < 56 ∧ (∀ b ∈ e.name, b ≠ 0) ∧ ValidBody e.data := by
    intro e he
    obtain ⟨t, htmem, rfl⟩ := List.mem_map.mp he
    exact mkEntry_valid t (hname t htmem) (hraw t htmem)
  have hlen : (inputs.map mkEntry).length = inputs.length := List.length_map inputs mkEntry
  have hp := parsePacArc_pack (inputs.map mkEntry) (by rw [hlen]; exact hsz) hval
  refine ⟨_, hp, by simp [hlen], ?_⟩
  have hres := expectedEntries_results inputs (4 + 64 * (inputs.map mkEntry).length) hname
  simpa using hres

/-- Witness inputs: one raw `.dat` entry and one bitmap entry. -/
def w2inputs : List (String × List Nat × String) :=
  [("A.dat", [1, 2, 3], "dat"), ("B.bmz", [7, 8], "bmp")]

theorem pac_roundtrip_witness :
    (∀ t ∈ w2inputs, goodName t.1 = true) ∧
    (∀ t ∈ w2inputs, t.2.2 = "bmp" ∨ t.2.1.take 4 ≠ ZLC3) ∧
    (4 + 64 * w2inputs.length + sumSizes (w2inputs.map mkEntry) < U32) ∧
    (buildAll w2inputs = .ok (w2inputs.map mkEntry) ∧
     ∃ arc, parsePacArc (pack (w2inputs.map mkEntry)) = some arc ∧
       arc.entries_count = w2inputs.length ∧
       arc.entries.map (fun e => (e.name?, e.file.converted_data)) =
         w2inputs.map (fun t => (Except.ok t.1, Except.ok t.2.1))) :=
  ⟨by decide, by decide, by decide,
    pac_roundtrip_amended w2inputs (by decide) (by decide) (by decide)⟩

/-- Claim C3 (confirmed): parsing is total — on every byte sequence it
either succeeds with exactly `entries_count` entries (the `u32` read at
offset 0) or fails; the embedded parser models the `u32` evaluation of
`size - BMZ_HEADER_SIZE` with wrapping (release) semantics, so even a
compressed-variant size field below 8 produces a result, never a crash. -/
theorem parse_total (bs : List Nat) :
    (∃ arc, parsePacArc bs = some arc ∧ arc.entries.length = arc.entries_count ∧
      readU32? bs 0 = some arc.entries_count) ∨
    parsePacArc bs = none := by
  cases hc : readU32? bs 0 with
  | none =>
    right
    simp [parsePacArc, hc]
  | some c =>
    cases he : parseEntries bs c 4 with
    | none =>
      right
      simp [parsePacArc, hc, he]
    | some l =>
      left
      refine ⟨⟨c, l⟩, ?_, ?_, ?_⟩
      · simp [parsePacArc, hc, he]
      · exact parseEntries_length bs c 4 l he
      · rfl

/-- Claim C4 (confirmed): `pack` writes the entry count, then all 64-byte
headers in insertion order, then all bodies in the same order; the
offsets carried by the headers start at 4 + 64·n (the in-memory
`size_of::<PacEntryWrite>()` used by the code is 64 on the 64-bit
targets the tool builds for, coinciding with the on-disk record size)
and advance by each body's serialized size, as `headersList` encodes. -/
theorem pack_layout (es : List PacEntryWrite)
    (h : 4 + 64 * es.length + sumSizes es < U32) :
    pack es = u32le es.length ++ headersList es (4 + 64 * es.length) ++ bodiesList es :=
  pack_spec es h

/-- Witness entries for the pack layout. -/
def w4es : List PacEntryWrite :=
  [⟨0, [65], PacFile.Other [9]⟩, ⟨0, [66], PacFile.Bmz 2 [7, 8]⟩]

theorem pack_layout_witness :
    (4 + 64 * w4es.length + sumSizes w4es < U32) ∧
    pack w4es = u32le w4es.length ++ headersList w4es (4 + 64 * w4es.length) ++ bodiesList w4es :=
  ⟨by decide, pack_layout w4es (by decide)⟩

/-- A one-entry archive whose body starts with `ZLC3` but whose size
field is 5, smaller than the compressed variant's 8-byte overhead. -/
def c5bytes : List Nat :=
  u32le 1 ++ u32le 68 ++ u32le 5 ++ nullStringPad [65] ++
  [90, 76, 67, 51, 88] ++ [1, 2, 3, 4]

/-- Claim C5 (counterexample): parsing `c5bytes` does not fail with any
invalid-body error — it succeeds, the undersized `ZLC3`-tagged body
falling back to the raw `Other` variant (the code has no
`FormatError::InvalidBody` at all). -/
theorem bmz_undersized_cex :
    (c5bytes.drop 68).take 4 = ZLC3 ∧
    parsePacArc c5bytes = some ⟨1, [⟨68, 5, PacFile.Other [90, 76, 67, 51, 88], [65]⟩]⟩ := by
  constructor
  · decide
  · rfl

/-- Claim C5 (amended): for a body whose size field is below the 8-byte
compressed-variant overhead, the `Bmz` attempt always fails (the `u32`
count `size - 8` wraps to a value no stream below 4 GiB can satisfy)
and `binrw` falls back to the raw variant, which parses successfully
whenever `size` bytes are available — no invalid-body error exists or
is reported. -/
theorem bmz_undersized_falls_back (bs : List Nat) (off size : Nat)
    (hsize : size < 8) (hlen : bs.length < U32) (hin : off + size ≤ bs.length) :
    parsePacFile bs off size = some (.Other ((bs.drop off).take size)) :=
  bmz_undersized bs off size hsize hlen hin

theorem bmz_undersized_witness :
    (5 : Nat) < 8 ∧ ([90, 76, 67, 51, 88, 9] : List Nat).length < U32 ∧ 0 + 5 ≤ 6 ∧
    parsePacFile [90, 76, 67, 51, 88, 9] 0 5 = some (.Other [90, 76, 67, 51, 88]) :=
  ⟨by decide, by decide, by decide,
    bmz_undersized_falls_back [90, 76, 67, 51, 88, 9] 0 5 (by decide) (by decide) (by decide)⟩

/-- Claim C6 (confirmed): `add_entry` fails exactly when the name is not
Shift-JIS-encodable or its encoding has 56 or more bytes; when the
encoding is strictly shorter than 56 bytes it succeeds and appends the
new entry. -/
theorem add_entry_spec (es : List PacEntryWrite) (f : PacFile) (name : String) :
    ((∃ l, add_entry es f name = .ok l) ↔
      ∃ bs, sjEncode name = some bs ∧ bs.length < 56) ∧
    (∀ bs, sjEncode name = some bs → bs.length < 56 →
      add_entry es f name = .ok (es ++ [⟨0, bs, f⟩])) := by
  constructor
  · constructor
    · rintro ⟨l, hl⟩
      cases henc : sjEncode name with
      | none => simp [add_entry, henc] at hl
      | some bs =>
        refine ⟨bs, rfl, ?_⟩
        by_contra hge
        simp only [add_entry, henc] at hl
        rw [if_neg (by simpa [ENTRY_NAME_SIZE] using hge)] at hl
        exact Except.noConfusion hl
    · rintro ⟨bs, henc, hlt⟩
      refine ⟨es ++ [⟨0, bs, f⟩], ?_⟩
      simp only [add_entry, henc]
      rw [if_pos (by simpa [ENTRY_NAME_SIZE] using hlt)]
  · intro bs henc hlt
    simp only [add_entry, henc]
    rw [if_pos (by simpa [ENTRY_NAME_SIZE] using hlt)]

theorem add_entry_witness :
    sjEncode "A" = some [65] ∧ ([65] : List Nat).length < 56 ∧
    add_entry [] (PacFile.Other [9]) "A" = .ok [⟨0, [65], PacFile.Other [9]⟩] :=
  ⟨rfl, by decide,
    (add_entry_spec [] (PacFile.Other [9]) "A").2 [65] rfl (by decide)⟩

/-- A TTP file meeting the claim's stated conditions (no trailing flag,
`kind_tag` ≠ 3, all frame strings trivially encodable) whose stored
`frame_count` disagrees with its frame list. -/
def c7file : TtpFile := ⟨1, 1, 0, 0, [], none⟩

/-- Claim C7 (counterexample): `c7file` has `kind_tag = 1`, no trailing
flag and no frames, satisfying the claim's stated side conditions, yet
`parse (serialize c7file)` fails: `serialize` writes the stored
`frame_count = 1` verbatim while emitting zero frames, so the re-parse
runs out of bytes — the claimed round-trip does not hold for every such
file. -/
theorem ttp_roundtrip_cex :
    c7file.maybe_ttp_type = 1 ∧ c7file.unk_bool = none ∧
    ttpParse c7file.write = none := by
  refine ⟨rfl, rfl, by decide⟩

/-- Claim C7 (amended): the binary round-trip holds for every
well-formed file: stored `frame_count` equal to the number of frames,
every resource name's stored length equal to its byte count, numeric
fields in `u32` range, and the trailing flag present exactly when
`kind_tag = 3` (absent otherwise); in particular the trailing byte is
written and read only for `kind_tag = 3`. -/
theorem ttp_roundtrip_amended (f : TtpFile) (h : f.wfB = true) :
    ttpParse f.write = some f :=
  ttp_roundtrip_of_wf f h

/-- Witness TTP file: `kind_tag = 3`, two frames, trailing byte. -/
def w7file : TtpFile :=
  ⟨3, 2, 10, 20,
    [⟨⟨1, [65]⟩, ⟨0, []⟩, ⟨2, [66, 67]⟩, 5, 6, 7, 8, 9⟩,
     ⟨⟨2, [68, 69]⟩, ⟨1, [70]⟩, ⟨0, []⟩, 1, 2, 3, 4, 5⟩],
    some 1⟩

theorem ttp_roundtrip_witness :
    w7file.wfB = true ∧ ttpParse w7file.write = some w7file :=
  ⟨by decide, ttp_roundtrip_amended w7file (by decide)⟩

/-- Claim C8 (counterexample): the binary serializer does not recompute
the length prefix — it writes the stored `len` field verbatim, so a
`ResName` whose stored `len` is 2 but which holds a single byte is
written with prefix 2 followed by 1 name byte; the written prefix does
not equal the number of name bytes that follow. -/
theorem res_name_len_cex :
    ResName.write ⟨2, [65]⟩ = [2, 0, 0, 0, 65] ∧
    ResName.write ⟨2, [65]⟩ ≠ u32le ([65] : List Nat).length ++ [65] := by
  constructor
  · decide
  · decide

/-- Claim C8 (amended): `serialize` writes the stored `len` field; the
recomputation from the encoded byte length happens in the string
deserializer (`ResNameVisitor`), and the binary parser also always
produces `len` equal to the byte count, so for every `ResName` obtained
from either constructor the written `u32` prefix equals the number of
name bytes that follow. -/
theorem res_name_len_amended :
    (∀ r : ResName, r.len = r.sj_bytes.length →
      r.write = u32le r.sj_bytes.length ++ r.sj_bytes) ∧
    (∀ bs : List Nat, ∀ p : ResName × List Nat, ResName.read bs = some p →
      p.1.len = p.1.sj_bytes.length) ∧
    (∀ s : String, ∀ r : ResName, ResName.ofStr s = some r →
      r.len = r.sj_bytes.length) := by
  refine ⟨?_, ?_, ?_⟩
  · intro r h
    rw [ResName.write, h]
  · intro bs p h
    simp only [ResName.read, Option.bind_eq_bind, Option.bind_eq_some] at h
    obtain ⟨⟨len, r1⟩, _, ⟨b, r2⟩, hb, hp⟩ := h
    rw [takeBytes] at hb
    by_cases hc : len ≤ r1.length
    · rw [if_pos hc] at hb
      obtain ⟨hb1, hb2⟩ := Prod.mk.injEq .. ▸ Option.some_inj.mp hb
      cases hp
      simp only [← hb1]
      rw [List.length_take]
      omega
    · rw [if_neg hc] at hb
      exact absurd hb (by simp)
  · intro s r h
    cases henc : sjEncode s with
    | none => simp [ResName.ofStr, henc] at h
    | some bs =>
      rw [ResName.ofStr, henc, Option.map_some'] at h
      have hr := Option.some_inj.mp h
      rw [← hr]

theorem res_name_len_witness :
    ((⟨1, [65]⟩ : ResName).len = [65].length) ∧
    ResName.write ⟨1, [65]⟩ = u32le ([65] : List Nat).length ++ [65] :=
  ⟨by decide, res_name_len_amended.1 ⟨1, [65]⟩ (by decide)⟩

/-- Claim C9 (counterexample): the two extension maps are not mutually
inverse on every input — mapping `"bmz"` to its original form and back
yields `"bmp"`, not the starting extension (`original_ext` fixes
`"bmz"`, then `converted_ext` sends it to `"bmp"`). -/
theorem ext_remap_cex :
    converted_ext (original_ext "bmz") = "bmp" ∧ ("bmp" : String) ≠ "bmz" := by
  constructor
  · decide
  · decide

/-- Claim C9 (amended): each direction fixes every extension other than
its own source of the remapped pair (`original_ext` moves only `"bmp"`,
`converted_ext` moves only `"bmz"`); the composition
`converted_ext ∘ original_ext` restores every extension except the
already-packed `"bmz"` (which becomes `"bmp"`), and symmetrically
`original_ext ∘ converted_ext` restores everything except `"bmp"`. -/
theorem ext_remap_amended (e : String) :
    (e ≠ "bmp" → original_ext e = e) ∧
    (e ≠ "bmz" → converted_ext e = e) ∧
    (e ≠ "bmz" → converted_ext (original_ext e) = e) ∧
    (e ≠ "bmp" → original_ext (converted_ext e) = e) ∧
    original_ext "bmp" = "bmz" ∧ converted_ext "bmz" = "bmp" := by
  refine ⟨?_, ?_, ?_, ?_, by decide, by decide⟩
  · intro h
    simp [original_ext, h]
  · intro h
    simp [converted_ext, h]
  · intro h
    by_cases hb : e = "bmp"
    · subst hb
      decide
    · simp [original_ext, converted_ext, hb, h]
  · intro h
    by_cases hb : e = "bmz"
    · subst hb
      decide
    · simp [original_ext, converted_ext, hb, h]

theorem ext_remap_witness :
    (("txt" : String) ≠ "bmz") ∧ converted_ext (original_ext "txt") = "txt" :=
  ⟨by decide, (ext_remap_amended "txt").2.2.1 (by decide)⟩

/-- A one-entry archive whose raw body of size 6 (< 8) begins with the
`ZLC3` marker bytes. -/
def c10bytes : List Nat :=
  u32le 1 ++ u32le 68 ++ u32le 6 ++ nullStringPad [66] ++
  [90, 76, 67, 51, 48, 49] ++ [0, 0, 0, 0]

/-- Claim C10 (counterexample): parsing `c10bytes` produces a raw
`Other` body whose data begins with the `ZLC3` marker (size 6 < 8 makes
the `Bmz` attempt fail and fall back), so the raw variant produced by
parsing can have data beginning with the marker, and four marker bytes
at the body offset do not force the compressed variant. -/
theorem zlc3_raw_cex :
    (parsePacArc c10bytes).map (fun a => a.entries.map (fun e => e.file)) =
      some [PacFile.Other [90, 76, 67, 51, 48, 49]] ∧
    ([90, 76, 67, 51, 48, 49] : List Nat).take 4 = ZLC3 := by
  constructor
  · rfl
  · decide

/-- Claim C10 (amended): when the four bytes at the body offset equal
`ZLC3` and the size field is at least 8 with the body in range, parsing
yields the compressed variant; a raw `Other` body produced by parsing
can begin with the marker only when its size field is below 8 (the
fallback window). -/
theorem zlc3_marker_amended :
    (∀ (bs : List Nat) (off size us : Nat), 8 ≤ size → size < U32 →
      off + size ≤ bs.length → (bs.drop off).take 4 = ZLC3 →
      readU32? bs (off + 4) = some us →
      parsePacFile bs off size = some (.Bmz us ((bs.drop (off + 8)).take (size - 8)))) ∧
    (∀ (bs : List Nat) (off size : Nat) (d : List Nat), size < U32 →
      parsePacFile bs off size = some (.Other d) → d.take 4 = ZLC3 → size < 8) :=
  ⟨fun bs off size us h8 hU hin hm hus => bmz_wellsized bs off size us h8 hU hin hm hus,
   fun bs off size d hU hp hm => other_with_magic_size_lt8 bs off size d hU hp hm⟩

theorem zlc3_marker_witness :
    ((8 : Nat) ≤ 11) ∧ ((11 : Nat) < U32) ∧
    (([90, 76, 67, 51, 2, 0, 0, 0, 7, 8, 9] : List Nat).drop 0).take 4 = ZLC3 ∧
    readU32? [90, 76, 67, 51, 2, 0, 0, 0, 7, 8, 9] (0 + 4) = some 2 ∧
    parsePacFile [90, 76, 67, 51, 2, 0, 0, 0, 7, 8, 9] 0 11 =
      some (.Bmz 2 (([90, 76, 67, 51, 2, 0, 0, 0, 7, 8, 9].drop (0 + 8)).take (11 - 8))) :=
  ⟨by decide, by decide, by decide, by decide,
    zlc3_marker_amended.1 [90, 76, 67, 51, 2, 0, 0, 0, 7, 8, 9] 0 11 2
      (by decide) (by decide) (by decide) (by decide) (by decide)⟩

end NipaaPac
